import Mathlib

/-!
Verification of the memcache text-protocol parser in `mcproto.go`
(repository recoilme/mcproto).

The session loop `ParseMc` and its helper scanners `scanSetLine`,
`scanDeleteLine` and `scanIncrDecrLine` are embedded shallowly:

* protocol bytes are `List Char` (all relevant bytes are ASCII);
* the `fmt.Sscanf` calls are modelled by a specialised scanner
  (`runScan`) that follows Go's `fmt` scanning rules for the exact
  format shapes used by the source: a literal command word, then
  `%s`/`%d` verbs each preceded by one format space, then a trailing
  `"\r\n"` (which, per Go's rules, matches zero or more non-newline
  spaces followed by a newline or end of input);
* the storage backend (`McEngine`) is an oracle record `Eng` holding
  the values one engine call would return; each dispatched line makes
  at most one engine call, recorded in the `calls` field of the result;
* socket writes are modelled as always succeeding; the output a
  command produces is the list of `OutEvent`s (buffered writes and
  explicit flushes) in order;
* Go slice expressions that can panic (`line[low:high]` with
  `low > high`, `make([]byte, n)` with `n < 0`) make the model return
  `none`.
-/

namespace Mcproto

/-- Protocol bytes, modelled as lists of characters. -/
abbrev Bytes := List Char

/-- Bytes of a string literal. -/
def bytes (s : String) : Bytes := s.data

/-- The CRLF terminator (`crlf` in mcproto.go). -/
def crlf : Bytes := ['\r', '\n']

def resultStored : Bytes := bytes ("STORED\r\n")
def resultNotStored : Bytes := bytes ("NOT_STORED\r\n")
def resultNotFound : Bytes := bytes ("NOT_FOUND\r\n")
def resultDeleted : Bytes := bytes ("DELETED\r\n")
def resultEnd : Bytes := bytes ("END\r\n")
def resultError : Bytes := bytes ("ERROR\r\n")

/-! ## The `fmt.Sscanf` model

Go's scanning functions (with `Sscanf`, where a newline in the input
must match a newline in the format) behave as follows on the format
shapes `"cmd %s %d ... \r\n"` used by the source:

* a literal character in the format must match the input exactly;
* a space in the format matches one or more non-newline spaces in the
  input, or end of input; reaching a newline is an error;
* before each verb, leading non-newline spaces are skipped; hitting a
  newline during the skip is an error;
* `%s` reads a maximal run of non-space characters, failing on an
  empty run; `%d` reads an optionally signed decimal (unsigned
  integers reject a sign) and range-checks it against the target's
  bit width;
* the `"\r\n"` at the end of the format is a (space, newline) pair:
  the space collapses into the newline, which matches zero or more
  non-newline spaces followed by a newline or end of input.

`Sscanf` returns the number of operands successfully stored before the
first error; unscanned destinations keep their zero values.
-/

/-- Non-newline whitespace as recognised by Go's `fmt` scanner
(the ASCII part; `\n` is handled separately throughout). -/
def isScanSpace (c : Char) : Bool :=
  c == ' ' || c == '\t' || c == '\r' || c == '\x0b' || c == '\x0c'

/-- Drop leading non-newline spaces, stopping in front of a newline. -/
def dropNonNlSpaces : Bytes → Bytes
  | [] => []
  | c :: rest => if c ≠ '\n' && isScanSpace c then dropNonNlSpaces rest else c :: rest

/-- `ss.SkipSpace` before a verb: skip non-newline spaces; reaching a
newline is an error (`none`). -/
def skipSpaceVerb : Bytes → Option Bytes
  | [] => some []
  | c :: rest =>
    if c = '\n' then none
    else if isScanSpace c then skipSpaceVerb rest
    else some (c :: rest)

/-- A single space in the format: one or more non-newline spaces in the
input, or end of input; a newline (immediately) is an error. -/
def matchFmtSpace : Bytes → Option Bytes
  | [] => some []
  | c :: rest =>
    if c = '\n' then none
    else if isScanSpace c then some (dropNonNlSpaces rest)
    else none

/-- The trailing `"\r\n"` of the format: zero or more non-newline
spaces, then a newline or end of input. -/
def matchFmtNl (inp : Bytes) : Bool :=
  match dropNonNlSpaces inp with
  | [] => true
  | c :: _ => c == '\n'

/-- Match a literal run of format characters against the input. -/
def matchLit : Bytes → Bytes → Option Bytes
  | [], inp => some inp
  | _ :: _, [] => none
  | c :: cs, d :: ds => if c = d then matchLit cs ds else none

/-- Characters that extend a `%s` token. -/
def notTokenEnd (c : Char) : Bool := !(isScanSpace c) && c ≠ '\n'

/-- The `%s` verb: skip spaces, then read a maximal nonempty run of
non-space characters. -/
def scanStr (inp : Bytes) : Option (Bytes × Bytes) :=
  match skipSpaceVerb inp with
  | none => none
  | some r =>
    let tok := r.takeWhile notTokenEnd
    if tok.isEmpty then none else some (tok, r.drop tok.length)

/-- Decimal digit test. -/
def isDigit (c : Char) : Bool := decide (48 ≤ c.toNat ∧ c.toNat ≤ 57)

/-- Accumulate a run of decimal digits, returning the value and the
rest of the input. -/
def digitsVal (acc : Nat) : Bytes → Nat × Bytes
  | [] => (acc, [])
  | c :: rest =>
    if isDigit c then digitsVal (acc * 10 + (c.toNat - 48)) rest else (acc, c :: rest)

/-- The `%d` verb for an unsigned integer of the given bit width:
no sign is accepted; overflow is an error. -/
def scanUintW (bits : Nat) (inp : Bytes) : Option (Nat × Bytes) :=
  match skipSpaceVerb inp with
  | none => none
  | some [] => none
  | some (c :: r) =>
    if isDigit c then
      let p := digitsVal (c.toNat - 48) r
      if p.1 < 2 ^ bits then some (p.1, p.2) else none
    else none

/-- The digits of a signed `%d` after the optional sign has been
consumed: at least one digit, then a range check against the bit
width. -/
def scanIntBody (bits : Nat) (neg : Bool) (body : Bytes) : Option (Int × Bytes) :=
  match body with
  | [] => none
  | d :: t =>
    if isDigit d then
      let p := digitsVal (d.toNat - 48) t
      let v : Int := if neg then -(p.1 : Int) else (p.1 : Int)
      if -((2 : Int) ^ (bits - 1)) ≤ v ∧ v < (2 : Int) ^ (bits - 1) then some (v, p.2)
      else none
    else none

/-- The `%d` verb for a signed integer of the given bit width:
an optional sign, then digits; overflow is an error. -/
def scanIntW (bits : Nat) (inp : Bytes) : Option (Int × Bytes) :=
  match skipSpaceVerb inp with
  | none => none
  | some [] => none
  | some (c :: r) =>
    if c = '-' then scanIntBody bits true r
    else if c = '+' then scanIntBody bits false r
    else scanIntBody bits false (c :: r)

/-- The verbs appearing in the source's formats, with the destination
types used there (`%s`, `%d` into `uint32`/`int32`/`int`/`uint64`). -/
inductive Verb
  | vstr
  | vu32
  | vi32
  | vi64
  | vu64
deriving DecidableEq

/-- A scanned value: a string token or an integer. -/
inductive SVal
  | s (tok : Bytes)
  | i (v : Int)
deriving DecidableEq

/-- Run one verb on the input. -/
def runVerb : Verb → Bytes → Option (SVal × Bytes)
  | Verb.vstr, inp => (scanStr inp).map (fun p => (SVal.s p.1, p.2))
  | Verb.vu32, inp => (scanUintW 32 inp).map (fun p => (SVal.i p.1, p.2))
  | Verb.vi32, inp => (scanIntW 32 inp).map (fun p => (SVal.i p.1, p.2))
  | Verb.vi64, inp => (scanIntW 64 inp).map (fun p => (SVal.i p.1, p.2))
  | Verb.vu64, inp => (scanUintW 64 inp).map (fun p => (SVal.i p.1, p.2))

/-- Run a list of verbs, each preceded by one format space. Returns
the values scanned before the first failure, and `some rest` when all
verbs succeeded. -/
def runVerbs : List Verb → Bytes → List SVal × Option Bytes
  | [], inp => ([], some inp)
  | v :: vs, inp =>
    match matchFmtSpace inp with
    | none => ([], none)
    | some r =>
      match runVerb v r with
      | none => ([], none)
      | some (val, rest) =>
        let p := runVerbs vs rest
        (val :: p.1, p.2)

/-- Run a whole format `lit ++ " %v"* ++ "\r\n"` on a line. Returns the
scanned values (their number is `Sscanf`'s `n`) and whether any error
occurred (`Sscanf`'s `err != nil`). -/
def runScan (lit : Bytes) (verbs : List Verb) (line : Bytes) : List SVal × Bool :=
  match matchLit lit line with
  | none => ([], true)
  | some r =>
    let p := runVerbs verbs r
    match p.2 with
    | none => (p.1, true)
    | some rest => (p.1, !(matchFmtNl rest))

/-- String destination: its scanned value, or the zero value `""`. -/
def svStr (v : Option SVal) : Bytes :=
  match v with
  | some (SVal.s t) => t
  | _ => []

/-- Integer destination: its scanned value, or the zero value `0`. -/
def svInt (v : Option SVal) : Int :=
  match v with
  | some (SVal.i n) => n
  | _ => 0

/-! ## The three line scanners (mcproto.go:392-414, 451-473, 477-506) -/

/-- Result of `scanSetLine`. -/
structure SetScan where
  key : Bytes
  flags : Nat
  exp : Int
  size : Int
  noreply : Bool
  err : Bool
deriving DecidableEq

/-- `scanSetLine` (mcproto.go:392-414). Note that the source compares
`noreplys` against `"noreply"`/`"NOREPLY"` before `fmt.Sscanf` has
stored anything into it (mcproto.go:406-409), so the returned flag is
computed from the empty string. -/
def scanSetLine (line : Bytes) (isCap : Bool) : SetScan :=
  let noreplys : Bytes := []
  let noreply := noreplys == bytes ("noreply") || noreplys == bytes ("NOREPLY")
  let cmd := if isCap then bytes ("SET") else bytes ("set")
  let verbs := if line.count ' ' == 4 then [Verb.vstr, Verb.vu32, Verb.vi32, Verb.vi64]
               else [Verb.vstr, Verb.vu32, Verb.vi32, Verb.vi64, Verb.vstr]
  let p := runScan cmd verbs line
  let size0 := svInt p.1[3]?
  let size : Int := if p.1.length != verbs.length then -1 else size0
  { key := svStr p.1[0]?, flags := (svInt p.1[1]?).toNat, exp := svInt p.1[2]?,
    size := size, noreply := noreply, err := p.2 || p.1.length != verbs.length }

/-- Result of `scanDeleteLine`. -/
structure DelScan where
  key : Bytes
  noreply : Bool
  err : Bool
deriving DecidableEq

/-- `scanDeleteLine` (mcproto.go:451-473); the `noreplys` comparison
again precedes the scan. -/
def scanDeleteLine (line : Bytes) (isCap : Bool) : DelScan :=
  let noreplys : Bytes := []
  let noreply := noreplys == bytes ("noreply") || noreplys == bytes ("NOREPLY")
  let cmd := if isCap then bytes ("DELETE") else bytes ("delete")
  let verbs := if line.count ' ' == 1 then [Verb.vstr] else [Verb.vstr, Verb.vstr]
  let p := runScan cmd verbs line
  { key := svStr p.1[0]?, noreply := noreply, err := p.2 || p.1.length != verbs.length }

/-- Result of `scanIncrDecrLine`. -/
structure IncrScan where
  key : Bytes
  val : Nat
  noreply : Bool
  err : Bool
deriving DecidableEq

/-- `scanIncrDecrLine` (mcproto.go:477-506); the `noreplys` comparison
again precedes the scan. -/
def scanIncrDecrLine (line : Bytes) (incr : Bool) (isCap : Bool) : IncrScan :=
  let noreplys : Bytes := []
  let noreply := noreplys == bytes ("noreply") || noreplys == bytes ("NOREPLY")
  let cmd := if isCap then (if incr then bytes ("INCR") else bytes ("DECR"))
             else (if incr then bytes ("incr") else bytes ("decr"))
  let verbs := if line.count ' ' == 2 then [Verb.vstr, Verb.vu64]
               else [Verb.vstr, Verb.vu64, Verb.vstr]
  let p := runScan cmd verbs line
  { key := svStr p.1[0]?, val := (svInt p.1[1]?).toNat, noreply := noreply,
    err := p.2 || p.1.length != verbs.length }

/-! ## The session dispatch (mcproto.go:158-388)

One iteration of `ParseMc`'s loop reads a line and dispatches on its
prefix. The model below mirrors the `switch` statement, including its
variable-shadowing: inside the `set` case `err` is redeclared by `:=`,
and in the `delete`/`incr`/`decr` cases the scanner's `err` is scoped
to the `if` statement, so none of those cases can change the loop's
outer `err`; in the `get` case `protocolError`'s result is assigned to
the outer `err` (overwriting any read error), while the `db.Get` /
`db.Gets` errors are freshly declared with `:=` and die with the block.
Only the outer `err` reaches the `resumableError` check that decides
whether the connection closes. Socket writes are modelled as
succeeding. -/

/-- The Go error values that can reach the loop's error check. `eof`
is any error whose message is exactly `"EOF"` (the loop compares
`err.Error() != "EOF"`); `closeSignal` is the `errors.New("Close")`
from the `close` case; `timeoutErr` stands for an i/o timeout from the
read deadline; `serverError` for any other backend error. -/
inductive GoErr
  | eof
  | cacheMiss
  | casConflict
  | notStored
  | malformedKey
  | closeSignal
  | timeoutErr
  | serverError
deriving DecidableEq

/-- `resumableError` (mcproto.go:420-426). -/
def resumableError : GoErr → Bool
  | GoErr.cacheMiss => true
  | GoErr.casConflict => true
  | GoErr.notStored => true
  | GoErr.malformedKey => true
  | _ => false

/-- Whether `err.Error() == "EOF"` for the read-error check. -/
def GoErr.isEofMsg : GoErr → Bool
  | GoErr.eof => true
  | _ => false

/-- The values the storage capability (`McEngine`) returns to the one
call a dispatched line can make. -/
structure Eng where
  getV : Option Bytes
  getNoreply : Bool
  getErr : Option GoErr
  getsErr : Option GoErr
  setNoreply : Bool
  setErr : Option GoErr
  delFound : Bool
  delNoreply : Bool
  incrRes : Nat
  incrFound : Bool
  incrNoreply : Bool
  decrRes : Nat
  decrFound : Bool
  decrNoreply : Bool

/-- A storage-capability invocation made while dispatching one line. -/
inductive Call
  | get (key : Bytes)
  | gets (keys : List Bytes)
  | set (key value : Bytes) (flags : Nat) (exp : Int) (size : Int) (noreply : Bool)
  | delete (key : Bytes)
  | incr (key : Bytes) (delta : Nat)
  | decr (key : Bytes) (delta : Nat)
deriving DecidableEq

/-- A buffered write of bytes, or an explicit flush. -/
inductive OutEvent
  | write (s : Bytes)
  | flush
deriving DecidableEq

/-- Output of one command, in order. -/
abbrev Output := List OutEvent

/-- Result of dispatching one nonempty line: the output events, the
storage calls made, the loop's outer `err` afterwards, and how many
item bytes were consumed from the stream by `io.ReadFull`. -/
structure Step where
  out : Output
  calls : List Call
  errOut : Option GoErr
  consumed : Nat
deriving DecidableEq

/-- Decimal bytes of a natural number (`fmt`'s `%d`). -/
def natDecimal (n : Nat) : Bytes := (Nat.repr n).data

/-- The `VALUE <key> 0 <len>\r\n<value>\r\n` block written by
`fmt.Fprintf` in the single-key get path (mcproto.go:244). -/
def valueBlock (key v : Bytes) : Bytes :=
  bytes ("VALUE ") ++ key ++ bytes (" 0 ") ++ natDecimal v.length ++ crlf ++ v ++ crlf

/-- Index of the first occurrence of a character (`bytes.Index` with a
one-byte separator; only used when the character is present). -/
def idxOf (c : Char) : Bytes → Nat
  | [] => 0
  | d :: rest => if d = c then 0 else idxOf c rest + 1

/-- `bytes.Split` with a one-byte separator. -/
def splitSpace : Bytes → List Bytes
  | [] => [[]]
  | c :: rest =>
    if c = ' ' then [] :: splitSpace rest
    else
      match splitSpace rest with
      | [] => [[c]]
      | t :: ts => (c :: t) :: ts

/-- The `set` case (mcproto.go:174-226). On a scan failure the case
writes `ERROR\r\n` and breaks with its case-local `err` set to `nil`;
otherwise it reads `size+2` item bytes with `io.ReadFull`, calls
`db.Set`, and unless the engine's returned noreply flag is set writes
`STORED\r\n` (the `NOT_STORED` write at mcproto.go:205 is guarded by
`err != nil` immediately after a `break` on `err != nil`, so it cannot
execute). The case-local `err` shadows the loop's `err` throughout. -/
def setCase (line rest : Bytes) (e : Eng) (readErr : Option GoErr) (isCap : Bool) :
    Option Step :=
  let sc := scanSetLine line isCap
  if sc.err || sc.size == -1 then
    some ⟨[OutEvent.write resultError, OutEvent.flush], [], readErr, 0⟩
  else if sc.size + 2 < 0 then
    none
  else
    let want := (sc.size + 2).toNat
    if rest.length < want then
      some ⟨[], [], readErr, rest.length⟩
    else
      let b := rest.take want
      let value := b.take sc.size.toNat
      let call := Call.set sc.key value sc.flags sc.exp sc.size sc.noreply
      match e.setErr with
      | some _ => some ⟨[], [call], readErr, want⟩
      | none =>
        if !e.setNoreply then
          some ⟨[OutEvent.write resultStored, OutEvent.flush], [call], readErr, want⟩
        else
          some ⟨[], [call], readErr, want⟩

/-- The `get`/`gets` case (mcproto.go:228-282). A line with no space or
without a CRLF suffix first gets `ERROR\r\n` via `protocolError`
(whose `nil` result is assigned to the loop's `err`); there is no
`else`, so the dispatch below still runs. One space selects the
single-key path (whose key slice panics when `Index+1 > len-2`);
anything else splits the line and calls `db.Gets` — the `END\r\n`
write after it is commented out in the source (mcproto.go:266-281). -/
def getCase (line : Bytes) (e : Eng) (readErr : Option GoErr) : Option Step :=
  let cnt := line.count ' '
  let bad := cnt == 0 || !(crlf.isSuffixOf line)
  let preOut : Output := if bad then [OutEvent.write resultError, OutEvent.flush] else []
  let errPre : Option GoErr := if bad then none else readErr
  if cnt == 1 then
    let idx := idxOf ' ' line
    if 2 ≤ line.length ∧ idx + 1 ≤ line.length - 2 then
      let key := (line.take (line.length - 2)).drop (idx + 1)
      let vOut : Output :=
        match e.getV with
        | some v =>
          if !e.getNoreply && e.getErr == none then [OutEvent.write (valueBlock key v)]
          else []
        | none => []
      let endOut : Output :=
        if !e.getNoreply then [OutEvent.write resultEnd, OutEvent.flush] else []
      some ⟨preOut ++ vOut ++ endOut, [Call.get key], errPre, 0⟩
    else none
  else
    let args := splitSpace (line.take (line.length - 2))
    some ⟨preOut, [Call.gets (args.drop 1)], errPre, 0⟩

/-- The `delete` case (mcproto.go:288-315). The parser's noreply flag
guards the whole call; the engine's returned noreply flag guards the
response. The scanner's `err` is scoped to the `if`, so the loop's
`err` is untouched on either path. -/
def deleteCase (line : Bytes) (e : Eng) (readErr : Option GoErr) (isCap : Bool) :
    Option Step :=
  let ds := scanDeleteLine line isCap
  if !ds.err then
    if !ds.noreply then
      let out : Output :=
        if !e.delNoreply then
          [OutEvent.write (if e.delFound then resultDeleted else resultNotFound),
           OutEvent.flush]
        else []
      some ⟨out, [Call.delete ds.key], readErr, 0⟩
    else
      some ⟨[], [], readErr, 0⟩
  else
    some ⟨[OutEvent.write resultError, OutEvent.flush], [], readErr, 0⟩

/-- The `incr` case (mcproto.go:316-343), shaped like `delete` with a
decimal result line for a found key. -/
def incrCase (line : Bytes) (e : Eng) (readErr : Option GoErr) (isCap : Bool) :
    Option Step :=
  let isc := scanIncrDecrLine line true isCap
  if !isc.err then
    if !isc.noreply then
      let out : Output :=
        if !e.incrNoreply then
          [OutEvent.write (if e.incrFound then natDecimal e.incrRes ++ crlf
                           else resultNotFound),
           OutEvent.flush]
        else []
      some ⟨out, [Call.incr isc.key isc.val], readErr, 0⟩
    else
      some ⟨[], [], readErr, 0⟩
  else
    some ⟨[OutEvent.write resultError, OutEvent.flush], [], readErr, 0⟩

/-- The `decr` case (mcproto.go:345-372). The source passes
`bytes.HasPrefix(line, cmdIncrB)` — the upper-case INCR prefix — as
the scanner's `isCap` argument (mcproto.go:346), which the model
reproduces. -/
def decrCase (line : Bytes) (e : Eng) (readErr : Option GoErr) : Option Step :=
  let dsc := scanIncrDecrLine line false ((bytes ("INCR")).isPrefixOf line)
  if !dsc.err then
    if !dsc.noreply then
      let out : Output :=
        if !e.decrNoreply then
          [OutEvent.write (if e.decrFound then natDecimal e.decrRes ++ crlf
                           else resultNotFound),
           OutEvent.flush]
        else []
      some ⟨out, [Call.decr dsc.key dsc.val], readErr, 0⟩
    else
      some ⟨[], [], readErr, 0⟩
  else
    some ⟨[OutEvent.write resultError, OutEvent.flush], [], readErr, 0⟩

/-- Dispatch one nonempty line by keyword prefix, in the source's
`switch` order (mcproto.go:173-374). A line matching no case is
silently discarded. -/
def dispatchLine (line rest : Bytes) (e : Eng) (readErr : Option GoErr) : Option Step :=
  if (bytes ("set")).isPrefixOf line || (bytes ("SET")).isPrefixOf line then
    setCase line rest e readErr ((bytes ("SET")).isPrefixOf line)
  else if (bytes ("get")).isPrefixOf line || (bytes ("GET")).isPrefixOf line
      || (bytes ("gets")).isPrefixOf line || (bytes ("GETS")).isPrefixOf line then
    getCase line e readErr
  else if (bytes ("close")).isPrefixOf line || (bytes ("CLOSE")).isPrefixOf line then
    some ⟨[], [], some GoErr.closeSignal, 0⟩
  else if (bytes ("delete")).isPrefixOf line || (bytes ("DELETE")).isPrefixOf line then
    deleteCase line e readErr ((bytes ("DELETE")).isPrefixOf line)
  else if (bytes ("incr")).isPrefixOf line || (bytes ("INCR")).isPrefixOf line then
    incrCase line e readErr ((bytes ("INCR")).isPrefixOf line)
  else if (bytes ("decr")).isPrefixOf line || (bytes ("DECR")).isPrefixOf line then
    decrCase line e readErr
  else
    some ⟨[], [], readErr, 0⟩

/-- The error check after the switch (mcproto.go:377-384): a non-nil
outer `err` closes the connection unless `resumableError` accepts it. -/
def stepCloses (s : Step) : Bool :=
  match s.errOut with
  | none => false
  | some e => !(resumableError e)

/-- Result of one loop iteration: the connection either continues or
closes, having produced the given output and storage calls. -/
inductive IterOut
  | closed (out : Output) (calls : List Call)
  | continued (out : Output) (calls : List Call)
deriving DecidableEq

/-- Process the line part of an iteration (mcproto.go:172-386): an
empty line is skipped; otherwise the line is dispatched and the outer
`err` decides whether the loop continues. -/
def processLine (line rest : Bytes) (e : Eng) (readErr : Option GoErr) : Option IterOut :=
  if line.length == 0 then some (IterOut.continued [] [])
  else
    match dispatchLine line rest e readErr with
    | none => none
    | some st =>
      some (if stepCloses st then IterOut.closed st.out st.calls
            else IterOut.continued st.out st.calls)

/-- One iteration of the session loop after `rw.ReadSlice('\n')`
returned `(line, readErr)` (mcproto.go:161-386). Only an error whose
message is `"EOF"` breaks out of the loop there; any other read error
is printed and the iteration proceeds (the next iteration re-arms the
deadline with `c.SetDeadline` and reads again). -/
def sessionIter (line : Bytes) (readErr : Option GoErr) (rest : Bytes) (e : Eng) :
    Option IterOut :=
  match readErr with
  | some ge =>
    if ge.isEofMsg then some (IterOut.closed [] [])
    else processLine line rest e (some ge)
  | none => processLine line rest e none

/-! ## The buffered-reader model (mcproto.go:158-161)

`ParseMc` constructs a brand-new `bufio.ReadWriter` over the raw
connection at the top of every loop iteration. The connection's
incoming bytes are modelled as the list of chunks successive `Read`
calls deliver; `ReadSlice('\n')` fills the fresh reader's buffer chunk
by chunk until it holds a newline and returns the buffer through that
newline. Whatever the last chunk contained beyond the newline stays in
the old reader's buffer, which the next iteration replaces. -/

/-- Split a chunk at its first newline: `some (through-newline, after)`
or `none` when it has no newline. -/
def splitAtNl : Bytes → Option (Bytes × Bytes)
  | [] => none
  | c :: rest =>
    if c = '\n' then some ([c], rest)
    else
      match splitAtNl rest with
      | none => none
      | some (pre, post) => some (c :: pre, post)

/-- Read one line from the remaining delivery chunks with a fresh
buffered reader: accumulate chunks until one contains a newline; the
bytes of that chunk after the newline are left behind in the replaced
buffer. `none` models end of stream before a newline (the loop then
sees `io.EOF` and breaks). -/
def grabLine (acc : Bytes) : List Bytes → Option (Bytes × List Bytes)
  | [] => none
  | d :: ds =>
    match splitAtNl d with
    | some (pre, _post) => some (acc ++ pre, ds)
    | none => grabLine (acc ++ d) ds

/-- The lines the session loop actually parses from a sequence of
delivered chunks, a fresh buffered reader being built for each line.
The fuel equals the number of chunks, which suffices because each line
consumes at least one chunk. -/
def sessionLinesF : Nat → List Bytes → List Bytes
  | 0, _ => []
  | fuel + 1, ds =>
    match grabLine [] ds with
    | none => []
    | some (line, rest) => line :: sessionLinesF fuel rest

/-- All lines the session parses from the delivered chunks. -/
def sessionLines (ds : List Bytes) : List Bytes := sessionLinesF ds.length ds

/-- A backend response with everything empty / not found / no error:
the `mapStore` test engine's answers for an absent key. -/
def eng0 : Eng :=
  { getV := none, getNoreply := false, getErr := none, getsErr := none,
    setNoreply := false, setErr := none, delFound := false, delNoreply := false,
    incrRes := 0, incrFound := false, incrNoreply := false,
    decrRes := 0, decrFound := false, decrNoreply := false }

/-! ## Canonical command lines

The universally quantified grammar claims speak of the "fields" of a
command line. A field is a maximal run of non-whitespace bytes; the
canonical line with a given field list joins the keyword and the
fields with single spaces and terminates with CRLF. -/

/-- A byte that cannot end a token: not scanner whitespace and not a
newline. -/
def goodChar (c : Char) : Prop := isScanSpace c = false ∧ c ≠ '\n'

/-- A well-formed field: nonempty and made of token bytes. -/
def GoodTok (t : Bytes) : Prop := t ≠ [] ∧ ∀ c ∈ t, goodChar c

instance (c : Char) : Decidable (goodChar c) := by
  unfold goodChar
  infer_instance

instance (t : Bytes) : Decidable (GoodTok t) := by
  unfold GoodTok
  infer_instance

/-- Join fields, one space before each. -/
def argCat : List Bytes → Bytes
  | [] => []
  | a :: as => ' ' :: (a ++ argCat as)

/-- The canonical lower-case set line with the given fields after the
keyword. -/
def setLineOf (args : List Bytes) : Bytes := bytes ("set") ++ argCat args ++ crlf

/-- A verb consumes a whole field successfully: any nonempty token for
`%s`; a token converting in full to an in-range number for `%d`. -/
def verbOk : Verb → Bytes → Prop
  | Verb.vstr, t => t ≠ []
  | Verb.vu32, t => ∃ v, scanUintW 32 t = some (v, [])
  | Verb.vi32, t => ∃ v, scanIntW 32 t = some (v, [])
  | Verb.vi64, t => ∃ v, scanIntW 64 t = some (v, [])
  | Verb.vu64, t => ∃ v, scanUintW 64 t = some (v, [])

/-- Some numeric field of a set line fails its declared conversion
(the fields after the key are declared uint32, int32, int). -/
def badNum (args : List Bytes) : Prop :=
  ¬ verbOk Verb.vu32 (args.getD 1 []) ∨ ¬ verbOk Verb.vi32 (args.getD 2 []) ∨
  ¬ verbOk Verb.vi64 (args.getD 3 [])

/-- The verb scan over a canonical field list fails: either some verb
fails, or all succeed and the trailing format newline does not match. -/
def scanFails (verbs : List Verb) (args : List Bytes) : Prop :=
  (runVerbs verbs (argCat args ++ crlf)).2 = none
  ∨ ∃ rest, (runVerbs verbs (argCat args ++ crlf)).2 = some rest ∧ matchFmtNl rest = false

/-! ## Claims -/

/-- C2. The claim says a trailing `noreply`/`NOREPLY` token makes the
scanners return the flag as `true`. In the source the comparison of
`noreplys` runs before `fmt.Sscanf` has stored anything into it
(mcproto.go:406, 465, 498), so the flag is `false` for every line —
including well-formed lines with the token, on which the scan itself
succeeds, as the conjuncts below show. -/
theorem noreply_flag_never_set :
    (∀ line isCap, (scanSetLine line isCap).noreply = false) ∧
    (∀ line isCap, (scanDeleteLine line isCap).noreply = false) ∧
    (∀ line incr isCap, (scanIncrDecrLine line incr isCap).noreply = false) ∧
    (scanSetLine (bytes ("set k 0 0 5 noreply\r\n")) false).err = false ∧
    (scanDeleteLine (bytes ("delete k noreply\r\n")) false).err = false ∧
    (scanIncrDecrLine (bytes ("incr k 1 noreply\r\n")) true false).err = false ∧
    (scanIncrDecrLine (bytes ("DECR k 1 NOREPLY\r\n")) false true).err = false :=
  ⟨fun _ _ => rfl, fun _ _ => rfl, fun _ _ _ => rfl,
   by decide, by decide, by decide, by decide⟩

/-- C3. The claim says a command with a valid `noreply` suffix
produces zero response bytes while the storage operation is still
invoked. On `delete k noreply\r\n` with a backend that reports the key
found (and, having been given no noreply information, returns a clear
noreply flag), the session invokes `db.Delete` but writes
`DELETED\r\n` and flushes — the response is not suppressed, because
the parsers never set the noreply flag (see C2); and had the parser
set it, the `if !noreply` at mcproto.go:290/318/347 would have skipped
the storage call entirely. The same happens for `incr`. -/
theorem noreply_suffix_still_replies :
    dispatchLine (bytes ("delete k noreply\r\n")) [] { eng0 with delFound := true } none =
      some ⟨[OutEvent.write resultDeleted, OutEvent.flush],
            [Call.delete (bytes ("k"))], none, 0⟩ ∧
    dispatchLine (bytes ("incr k 1 noreply\r\n")) []
        { eng0 with incrFound := true, incrRes := 2 } none =
      some ⟨[OutEvent.write (bytes ("2\r\n")), OutEvent.flush],
            [Call.incr (bytes ("k")) 1], none, 0⟩ := by
  constructor <;> decide

/-- C4. The claim says any read failure other than a clean
end-of-stream is reported and closes the connection without retrying.
In the source (mcproto.go:163-171) only an error whose message is
`"EOF"` executes `break`; every other read error — an idle-deadline
timeout included — is merely printed, after which the loop re-arms
the deadline and reads again, so an idle connection is never closed. -/
theorem read_error_does_not_close :
    sessionIter [] (some GoErr.timeoutErr) [] eng0 = some (IterOut.continued [] []) ∧
    sessionIter [] (some GoErr.eof) [] eng0 = some (IterOut.closed [] []) := by
  constructor <;> rfl

/-- C5. The claim says a completed `set` answers `NOT_STORED\r\n` when
the store reports a failure. In the source, a `db.Set` error hits the
`break` at mcproto.go:199-202 before reaching the response writer, and
the `NOT_STORED` branch at mcproto.go:204-209 is guarded by
`err != nil` where `err` is necessarily nil — so a failed store
produces no response at all (the case-local `err` also never reaches
the loop's error check, so the connection even stays open). The
success half of the claim does hold: `STORED\r\n` is written and
flushed. -/
theorem set_store_failure_silent :
    dispatchLine (bytes ("set k 0 0 1\r\n")) (bytes ("v\r\n"))
        { eng0 with setErr := some GoErr.serverError } none =
      some ⟨[], [Call.set (bytes ("k")) (bytes ("v")) 0 0 1 false], none, 3⟩ ∧
    dispatchLine (bytes ("set k 0 0 1\r\n")) (bytes ("v\r\n")) eng0 none =
      some ⟨[OutEvent.write resultStored, OutEvent.flush],
            [Call.set (bytes ("k")) (bytes ("v")) 0 0 1 false], none, 3⟩ := by
  constructor <;> decide

/-- C7. The claim says every keyword is accepted in its all-upper-case
spelling, in particular `DECR`. The dispatch for the decr case passes
`bytes.HasPrefix(line, cmdIncrB)` — the INCR prefix — as the
scanner's `isCap` flag (mcproto.go:346), so for `DECR k 1\r\n` the
scanner matches the line against lower-case `decr` and fails: the
session answers `ERROR\r\n` and never invokes the storage decrement,
while `decr k 1\r\n` and `INCR k 1\r\n` dispatch normally. -/
theorem decr_upper_case_rejected :
    dispatchLine (bytes ("DECR k 1\r\n")) [] eng0 none =
      some ⟨[OutEvent.write resultError, OutEvent.flush], [], none, 0⟩ ∧
    dispatchLine (bytes ("decr k 1\r\n")) [] eng0 none =
      some ⟨[OutEvent.write resultNotFound, OutEvent.flush],
            [Call.decr (bytes ("k")) 1], none, 0⟩ ∧
    dispatchLine (bytes ("INCR k 1\r\n")) [] eng0 none =
      some ⟨[OutEvent.write resultNotFound, OutEvent.flush],
            [Call.incr (bytes ("k")) 1], none, 0⟩ := by
  refine ⟨by decide, by decide, by decide⟩

/-- C9. The claim says a get/gets line with zero spaces gets
`ERROR\r\n` and invokes no storage operation. The source writes
`ERROR\r\n` via `protocolError` (mcproto.go:230-237) but has no `else`
after it, so the dispatch below still runs: for `get\r\n` the
zero-space line falls into the multi-key branch and `db.Gets` is
invoked with an empty key list. The connection does continue. -/
theorem get_zero_space_still_calls_storage :
    dispatchLine (bytes ("get\r\n")) [] eng0 none =
      some ⟨[OutEvent.write resultError, OutEvent.flush], [Call.gets []], none, 0⟩ ∧
    sessionIter (bytes ("get\r\n")) none [] eng0 =
      some (IterOut.continued [OutEvent.write resultError, OutEvent.flush]
        [Call.gets []]) := by
  constructor <;> decide

/-- C8 counterexample. The claim says a set line with a field count
other than 4 or 5 makes the parser yield the sentinel `size = -1`. On
`set k 0 0 5 noreply extra\r\n` (6 fields) all five destinations are
scanned before the trailing-format mismatch, so `Sscanf` returns
`n == len(dest)` with a non-nil error: `size` stays 5 and only `err`
reports the failure. -/
theorem set_sentinel_not_returned :
    (scanSetLine (bytes ("set k 0 0 5 noreply extra\r\n")) false).size = 5 ∧
    (scanSetLine (bytes ("set k 0 0 5 noreply extra\r\n")) false).err = true := by
  constructor <;> decide

/-! ### Supporting lemmas for the general get-path claims -/

lemma isPrefixOf_self_append (l t : Bytes) : l.isPrefixOf (l ++ t) = true := by
  induction l with
  | nil => cases t <;> rfl
  | cons c cs ih => simp [List.isPrefixOf, ih]

lemma crlf_isSuffixOf_append (l : Bytes) : crlf.isSuffixOf (l ++ crlf) = true := by
  unfold List.isSuffixOf
  rw [List.reverse_append]
  exact isPrefixOf_self_append crlf.reverse l.reverse

/-- The single-key path of the get case on a well-formed line
`get <key>\r\n` whose key contains no space. -/
lemma getCase_single (key : Bytes) (e : Eng) (readErr : Option GoErr)
    (hk : key.count ' ' = 0) :
    getCase (bytes ("get ") ++ key ++ crlf) e readErr =
      some ⟨(match e.getV with
             | some v =>
               if !e.getNoreply && e.getErr == none then [OutEvent.write (valueBlock key v)]
               else []
             | none => []) ++
            (if !e.getNoreply then [OutEvent.write resultEnd, OutEvent.flush] else []),
            [Call.get key], readErr, 0⟩ := by
  have hcnt : (bytes ("get ") ++ key ++ crlf).count ' ' = 1 := by
    rw [List.count_append, List.count_append, hk]
    decide
  have hsuf : crlf.isSuffixOf (bytes ("get ") ++ key ++ crlf) = true :=
    crlf_isSuffixOf_append _
  have hidx : idxOf ' ' (bytes ("get ") ++ key ++ crlf) = 3 := rfl
  have hlen : (bytes ("get ") ++ key ++ crlf).length = key.length + 6 := by
    simp [bytes, crlf]
  have htake : (bytes ("get ") ++ key ++ crlf).take (key.length + 6 - 2) =
      bytes ("get ") ++ key := by
    apply List.take_left'
    simp [bytes]
  have hkey : (bytes ("get ") ++ key).drop (3 + 1) = key := rfl
  have hcond : 2 ≤ key.length + 6 ∧ 3 + 1 ≤ key.length + 6 - 2 := by omega
  unfold getCase
  simp only [hcnt, hsuf, hidx, hlen, htake, hkey]
  simp [hcond.1, hcond.2]

/-- C1. A single-key `get` line (exactly one space) with a fetch that
returns no error and a clear noreply flag: on a miss the session
writes exactly `END\r\n` and flushes; on a hit it writes the
`VALUE <key> 0 <len>\r\n<value>\r\n` block, then `END\r\n`, and
flushes (mcproto.go:239-257). -/
theorem get_single_key_responses (key rest : Bytes) (e : Eng)
    (hk : key.count ' ' = 0) (hnr : e.getNoreply = false) (herr : e.getErr = none) :
    (e.getV = none →
      dispatchLine (bytes ("get ") ++ key ++ crlf) rest e none =
        some ⟨[OutEvent.write resultEnd, OutEvent.flush], [Call.get key], none, 0⟩) ∧
    (∀ v, e.getV = some v →
      dispatchLine (bytes ("get ") ++ key ++ crlf) rest e none =
        some ⟨[OutEvent.write (valueBlock key v), OutEvent.write resultEnd, OutEvent.flush],
              [Call.get key], none, 0⟩) := by
  have hroute : dispatchLine (bytes ("get ") ++ key ++ crlf) rest e none =
      getCase (bytes ("get ") ++ key ++ crlf) e none := rfl
  constructor
  · intro hv
    rw [hroute, getCase_single key e none hk, hv, hnr]
    rfl
  · intro v hv
    rw [hroute, getCase_single key e none hk, hv, hnr, herr]
    rfl

/-- C1 witness: the theorem applied to `get k\r\n` with a backend
holding the two-byte value `ab`. -/
theorem get_single_key_responses_witness :
    (bytes ("k")).count ' ' = 0 ∧
    dispatchLine (bytes ("get ") ++ bytes ("k") ++ crlf) []
        { eng0 with getV := some (bytes ("ab")) } none =
      some ⟨[OutEvent.write (valueBlock (bytes ("k")) (bytes ("ab"))),
             OutEvent.write resultEnd, OutEvent.flush],
            [Call.get (bytes ("k"))], none, 0⟩ :=
  ⟨by decide,
   (get_single_key_responses (bytes ("k")) [] _ (by decide) rfl rfl).2 (bytes ("ab")) rfl⟩

/-- C6 counterexample. The claim says that after a multi-key get the
loop writes `END\r\n` and flushes. The write of `resultEnd` and the
flush after `db.Gets` are commented out in the source
(mcproto.go:266-281): on `get a b\r\n` with a multi-fetch that returns
no error, the loop writes nothing at all. -/
theorem gets_end_not_written :
    dispatchLine (bytes ("get a b\r\n")) [] eng0 none =
      some ⟨[], [Call.gets [bytes ("a"), bytes ("b")]], none, 0⟩ := by
  decide

/-- C6 amended. After a multi-key get/gets line (more than one space,
CRLF-terminated), the loop invokes the storage multi-fetch with the
tokens after the keyword, and writes and flushes nothing itself: the
`END\r\n` write is commented out in the source (mcproto.go:266-281),
leaving all response output to the capability. -/
theorem gets_multi_writes_nothing (line rest : Bytes) (e : Eng)
    (hpref : (∃ t, line = bytes ("get") ++ t) ∨ (∃ t, line = bytes ("GET") ++ t))
    (hcnt : 2 ≤ line.count ' ') (hsuf : crlf.isSuffixOf line = true) :
    dispatchLine line rest e none =
      some ⟨[], [Call.gets ((splitSpace (line.take (line.length - 2))).drop 1)],
            none, 0⟩ := by
  have hne1 : (line.count ' ' == 1) = false := by
    simp only [beq_eq_false_iff_ne, ne_eq]
    omega
  have hne0 : (line.count ' ' == 0) = false := by
    simp only [beq_eq_false_iff_ne, ne_eq]
    omega
  rcases hpref with ⟨t, rfl⟩ | ⟨t, rfl⟩
  · cases t with
    | nil => exact absurd hcnt (by decide)
    | cons c t' =>
      have hroute : dispatchLine (bytes ("get") ++ c :: t') rest e none =
          getCase (bytes ("get") ++ c :: t') e none := rfl
      rw [hroute]
      unfold getCase
      simp only [hne0, hne1, hsuf]
      simp
  · cases t with
    | nil => exact absurd hcnt (by decide)
    | cons c t' =>
      have hroute : dispatchLine (bytes ("GET") ++ c :: t') rest e none =
          getCase (bytes ("GET") ++ c :: t') e none := rfl
      rw [hroute]
      unfold getCase
      simp only [hne0, hne1, hsuf]
      simp

/-- C6 witness: the amended theorem applied to `get a b\r\n`. -/
theorem gets_multi_writes_nothing_witness :
    2 ≤ (bytes ("get a b\r\n")).count ' ' ∧
    dispatchLine (bytes ("get a b\r\n")) [] eng0 none =
      some ⟨[], [Call.gets ((splitSpace ((bytes ("get a b\r\n")).take
              ((bytes ("get a b\r\n")).length - 2))).drop 1)], none, 0⟩ :=
  ⟨by decide,
   gets_multi_writes_nothing (bytes ("get a b\r\n")) [] eng0
     (Or.inl ⟨bytes (" a b\r\n"), by decide⟩) (by decide) (by decide)⟩

/-- C10 helper: a chunk with a newline splits at the first one. -/
lemma splitAtNl_append (pre post : Bytes) (hp : '\n' ∉ pre) :
    splitAtNl (pre ++ '\n' :: post) = some (pre ++ ['\n'], post) := by
  induction pre with
  | nil => simp [splitAtNl]
  | cons c cs ih =>
    have hc : c ≠ '\n' := fun h => hp (h ▸ List.mem_cons_self c cs)
    have ih' := ih (fun h => hp (List.mem_cons_of_mem c h))
    simp [splitAtNl, hc, ih']

/-- C10. A fresh buffered reader (and writer) is constructed over the
raw connection at the top of every loop iteration (mcproto.go:159), so
when one delivered chunk contains a full line plus further pipelined
bytes, the iteration parses only the line up to the first newline and
the rest of the chunk — left behind in the replaced reader's buffer —
is discarded: the remaining parsed lines come exclusively from the
later deliveries. -/
theorem fresh_reader_discards_leftover (pre post : Bytes) (ds : List Bytes)
    (hp : '\n' ∉ pre) :
    sessionLines ((pre ++ '\n' :: post) :: ds) = (pre ++ ['\n']) :: sessionLines ds := by
  unfold sessionLines
  simp [sessionLinesF, grabLine, splitAtNl_append pre post hp]

/-- C10 witness: a chunk holding two pipelined commands — the second,
`get b\r\n`, is never parsed. -/
theorem fresh_reader_discards_leftover_witness :
    '\n' ∉ bytes ("get a\r") ∧
    sessionLines [bytes ("get a\r") ++ '\n' :: bytes ("get b\r\n")] =
      [bytes ("get a\r") ++ ['\n']] :=
  ⟨by decide,
   fresh_reader_discards_leftover (bytes ("get a\r")) (bytes ("get b\r\n")) [] (by decide)⟩

/-! ### C8: the scanner on canonical lines, character-level lemmas -/

lemma scanSpace_not_digit (d : Char) (hd : isScanSpace d = true) : isDigit d = false := by
  simp only [isScanSpace, Bool.or_eq_true, beq_iff_eq] at hd
  rcases hd with ((((h | h) | h) | h) | h) <;> subst h <;> decide

lemma skipSpaceVerb_good (c : Char) (r : Bytes) (hc : goodChar c) :
    skipSpaceVerb (c :: r) = some (c :: r) := by
  simp [skipSpaceVerb, hc.1, hc.2]

lemma dropNonNlSpaces_good (c : Char) (r : Bytes) (hc : goodChar c) :
    dropNonNlSpaces (c :: r) = c :: r := by
  simp [dropNonNlSpaces, hc.1]

lemma dropNonNlSpaces_space (r : Bytes) :
    dropNonNlSpaces (' ' :: r) = dropNonNlSpaces r := by
  simp [dropNonNlSpaces, isScanSpace]

lemma matchFmtSpace_space (r : Bytes) :
    matchFmtSpace (' ' :: r) = some (dropNonNlSpaces r) := by
  simp [matchFmtSpace, isScanSpace]

lemma matchFmtSpace_good (c : Char) (r : Bytes) (hc : goodChar c) :
    matchFmtSpace (c :: r) = none := by
  simp [matchFmtSpace, hc.1, hc.2]

lemma matchFmtNl_good (c : Char) (r : Bytes) (hc : goodChar c) :
    matchFmtNl (c :: r) = false := by
  unfold matchFmtNl
  rw [dropNonNlSpaces_good c r hc]
  simp [hc.2]

lemma goodTok_cons (a : Bytes) (ha : GoodTok a) :
    ∃ c a', a = c :: a' ∧ goodChar c ∧ ∀ x ∈ a', goodChar x := by
  obtain ⟨hne, hall⟩ := ha
  cases a with
  | nil => exact absurd rfl hne
  | cons c a' =>
    exact ⟨c, a', rfl, hall c (List.mem_cons_self c a'),
           fun x hx => hall x (List.mem_cons_of_mem c hx)⟩

lemma takeWhile_append_all {p : Char → Bool} (l t : Bytes) (h : ∀ c ∈ l, p c = true) :
    (l ++ t).takeWhile p = l ++ t.takeWhile p := by
  induction l with
  | nil => rfl
  | cons c cs ih =>
    have hc := h c (List.mem_cons_self c cs)
    simp [List.takeWhile_cons, hc, ih (fun x hx => h x (List.mem_cons_of_mem c hx))]

lemma notTokenEnd_good (c : Char) (hc : goodChar c) : notTokenEnd c = true := by
  simp [notTokenEnd, hc.1, hc.2]

lemma scanStr_field (a : Bytes) (d : Char) (t : Bytes) (ha : GoodTok a)
    (hd : isScanSpace d = true) :
    scanStr (a ++ d :: t) = some (a, d :: t) := by
  obtain ⟨c, a', rfl, hc, hall⟩ := goodTok_cons a ha
  have hall2 : ∀ x ∈ c :: a', notTokenEnd x = true := by
    intro x hx
    rcases List.mem_cons.1 hx with rfl | hx'
    · exact notTokenEnd_good x hc
    · exact notTokenEnd_good x (hall x hx')
  have hdf : notTokenEnd d = false := by simp [notTokenEnd, hd]
  have htok : ((c :: a') ++ d :: t).takeWhile notTokenEnd = c :: a' := by
    rw [takeWhile_append_all (c :: a') (d :: t) hall2]
    simp [List.takeWhile_cons, hdf]
  have hdrop : (c :: (a' ++ d :: t)).drop (c :: a').length = d :: t := by
    rw [show c :: (a' ++ d :: t) = (c :: a') ++ d :: t from rfl]
    exact List.drop_left _ _
  unfold scanStr
  rw [show (c :: a') ++ d :: t = c :: (a' ++ d :: t) from rfl] at htok ⊢
  rw [skipSpaceVerb_good c _ hc]
  simp [htok, hdrop]

lemma digitsVal_append (acc : Nat) (l : Bytes) (d : Char) (t : Bytes)
    (hd : isDigit d = false) :
    digitsVal acc (l ++ d :: t) = ((digitsVal acc l).1, (digitsVal acc l).2 ++ d :: t) := by
  induction l generalizing acc with
  | nil => simp [digitsVal, hd]
  | cons c cs ih =>
    by_cases hc : isDigit c = true
    · simp [digitsVal, hc, ih]
    · simp [digitsVal, hc]

lemma digitsVal_rest_mem (acc : Nat) (l : Bytes) :
    ∀ x ∈ (digitsVal acc l).2, x ∈ l := by
  induction l generalizing acc with
  | nil => intro x hx; simp [digitsVal] at hx
  | cons c cs ih =>
    by_cases hc : isDigit c = true
    · intro x hx
      simp only [digitsVal, hc, if_true] at hx
      exact List.mem_cons_of_mem c (ih _ x hx)
    · intro x hx
      simp only [digitsVal, hc] at hx
      simpa using hx

/-! ### C8: how each verb consumes one canonical field -/

lemma scanUintW_split (bits : Nat) (a : Bytes) (d : Char) (t : Bytes)
    (ha : GoodTok a) (hd : isScanSpace d = true) :
    scanUintW bits (a ++ d :: t) = none
    ∨ (∃ v, scanUintW bits (a ++ d :: t) = some (v, d :: t) ∧
        ∃ w, scanUintW bits a = some (w, []))
    ∨ (∃ v c l, scanUintW bits (a ++ d :: t) = some (v, (c :: l) ++ d :: t) ∧
        goodChar c) := by
  obtain ⟨c0, a', rfl, hc0, hall⟩ := goodTok_cons a ha
  have hdd : isDigit d = false := scanSpace_not_digit d hd
  have hcons : (c0 :: a') ++ d :: t = c0 :: (a' ++ d :: t) := rfl
  by_cases hdig : isDigit c0 = true
  · have hsplit := digitsVal_append (c0.toNat - 48) a' d t hdd
    by_cases hrange : (digitsVal (c0.toNat - 48) a').1 < 2 ^ bits
    · rcases hrest : (digitsVal (c0.toNat - 48) a').2 with _ | ⟨c, l⟩
      · refine Or.inr (Or.inl ⟨(digitsVal (c0.toNat - 48) a').1, ?_,
          (digitsVal (c0.toNat - 48) a').1, ?_⟩)
        · unfold scanUintW
          rw [hcons, skipSpaceVerb_good c0 _ hc0]
          simp [hdig, hsplit, hrest, hrange]
        · unfold scanUintW
          rw [skipSpaceVerb_good c0 _ hc0]
          simp [hdig, hrange, hrest]
      · refine Or.inr (Or.inr ⟨(digitsVal (c0.toNat - 48) a').1, c, l, ?_, ?_⟩)
        · unfold scanUintW
          rw [hcons, skipSpaceVerb_good c0 _ hc0]
          simp [hdig, hsplit, hrest, hrange]
        · refine hall c (digitsVal_rest_mem (c0.toNat - 48) a' c ?_)
          rw [hrest]
          exact List.mem_cons_self c l
    · refine Or.inl ?_
      unfold scanUintW
      rw [hcons, skipSpaceVerb_good c0 _ hc0]
      simp [hdig, hsplit, hrange]
  · refine Or.inl ?_
    unfold scanUintW
    rw [hcons, skipSpaceVerb_good c0 _ hc0]
    simp [hdig]

lemma scanIntBody_split (bits : Nat) (neg : Bool) (a : Bytes) (d : Char) (t : Bytes)
    (hall : ∀ x ∈ a, goodChar x) (hd : isScanSpace d = true) :
    scanIntBody bits neg (a ++ d :: t) = none
    ∨ (∃ v, scanIntBody bits neg (a ++ d :: t) = some (v, d :: t) ∧
        ∃ w, scanIntBody bits neg a = some (w, []))
    ∨ (∃ v c l, scanIntBody bits neg (a ++ d :: t) = some (v, (c :: l) ++ d :: t) ∧
        goodChar c) := by
  have hdd : isDigit d = false := scanSpace_not_digit d hd
  cases a with
  | nil =>
    refine Or.inl ?_
    simp [scanIntBody, hdd]
  | cons c1 a'' =>
    have hall' : ∀ x ∈ a'', goodChar x := fun x hx => hall x (List.mem_cons_of_mem c1 hx)
    have hcons : (c1 :: a'') ++ d :: t = c1 :: (a'' ++ d :: t) := rfl
    by_cases hdig : isDigit c1 = true
    · have hsplit := digitsVal_append (c1.toNat - 48) a'' d t hdd
      set pv : Int := if neg then -(((digitsVal (c1.toNat - 48) a'').1 : Nat) : Int)
        else (((digitsVal (c1.toNat - 48) a'').1 : Nat) : Int) with hpv
      by_cases hrange : -((2 : Int) ^ (bits - 1)) ≤ pv ∧ pv < (2 : Int) ^ (bits - 1)
      · rcases hrest : (digitsVal (c1.toNat - 48) a'').2 with _ | ⟨c, l⟩
        · refine Or.inr (Or.inl ⟨pv, ?_, pv, ?_⟩)
          · rw [hcons]
            simp only [scanIntBody, hdig, if_true, hsplit, hrest]
            simp [← hpv, hrange]
          · simp only [scanIntBody, hdig, if_true, hrest]
            simp [← hpv, hrange]
        · refine Or.inr (Or.inr ⟨pv, c, l, ?_, ?_⟩)
          · rw [hcons]
            simp only [scanIntBody, hdig, if_true, hsplit, hrest]
            simp [← hpv, hrange]
          · refine hall' c (digitsVal_rest_mem (c1.toNat - 48) a'' c ?_)
            rw [hrest]
            exact List.mem_cons_self c l
      · refine Or.inl ?_
        rw [hcons]
        simp only [scanIntBody, hdig, if_true, hsplit]
        simp [← hpv, hrange]
    · refine Or.inl ?_
      rw [hcons]
      simp [scanIntBody, hdig]

lemma scanIntW_split (bits : Nat) (a : Bytes) (d : Char) (t : Bytes)
    (ha : GoodTok a) (hd : isScanSpace d = true) :
    scanIntW bits (a ++ d :: t) = none
    ∨ (∃ v, scanIntW bits (a ++ d :: t) = some (v, d :: t) ∧
        ∃ w, scanIntW bits a = some (w, []))
    ∨ (∃ v c l, scanIntW bits (a ++ d :: t) = some (v, (c :: l) ++ d :: t) ∧
        goodChar c) := by
  obtain ⟨c0, a', rfl, hc0, hall⟩ := goodTok_cons a ha
  have hcons : (c0 :: a') ++ d :: t = c0 :: (a' ++ d :: t) := rfl
  have hw1 : scanIntW bits ((c0 :: a') ++ d :: t) =
      (if c0 = '-' then scanIntBody bits true (a' ++ d :: t)
       else if c0 = '+' then scanIntBody bits false (a' ++ d :: t)
       else scanIntBody bits false ((c0 :: a') ++ d :: t)) := by
    rw [hcons]
    unfold scanIntW
    rw [skipSpaceVerb_good c0 _ hc0]
  have hw2 : scanIntW bits (c0 :: a') =
      (if c0 = '-' then scanIntBody bits true a'
       else if c0 = '+' then scanIntBody bits false a'
       else scanIntBody bits false (c0 :: a')) := by
    unfold scanIntW
    rw [skipSpaceVerb_good c0 _ hc0]
  by_cases hm : c0 = '-'
  · rcases scanIntBody_split bits true a' d t hall hd with h | ⟨v, h, w, hw⟩ | ⟨v, c, l, h, hc⟩
    · exact Or.inl (by rw [hw1, if_pos hm, h])
    · exact Or.inr (Or.inl ⟨v, by rw [hw1, if_pos hm, h], w, by rw [hw2, if_pos hm, hw]⟩)
    · exact Or.inr (Or.inr ⟨v, c, l, by rw [hw1, if_pos hm, h], hc⟩)
  · by_cases hp : c0 = '+'
    · rcases scanIntBody_split bits false a' d t hall hd with h | ⟨v, h, w, hw⟩ | ⟨v, c, l, h, hc⟩
      · exact Or.inl (by rw [hw1, if_neg hm, if_pos hp, h])
      · exact Or.inr (Or.inl ⟨v, by rw [hw1, if_neg hm, if_pos hp, h], w,
          by rw [hw2, if_neg hm, if_pos hp, hw]⟩)
      · exact Or.inr (Or.inr ⟨v, c, l, by rw [hw1, if_neg hm, if_pos hp, h], hc⟩)
    · have hallc : ∀ x ∈ c0 :: a', goodChar x := by
        intro x hx
        rcases List.mem_cons.1 hx with rfl | hx'
        exacts [hc0, hall x hx']
      rcases scanIntBody_split bits false (c0 :: a') d t hallc hd with
        h | ⟨v, h, w, hw⟩ | ⟨v, c, l, h, hc⟩
      · exact Or.inl (by rw [hw1, if_neg hm, if_neg hp, h])
      · exact Or.inr (Or.inl ⟨v, by rw [hw1, if_neg hm, if_neg hp, h], w,
          by rw [hw2, if_neg hm, if_neg hp, hw]⟩)
      · exact Or.inr (Or.inr ⟨v, c, l, by rw [hw1, if_neg hm, if_neg hp, h], hc⟩)

lemma runVerb_split (v : Verb) (a : Bytes) (d : Char) (t : Bytes)
    (ha : GoodTok a) (hd : isScanSpace d = true) :
    runVerb v (a ++ d :: t) = none
    ∨ (∃ val, runVerb v (a ++ d :: t) = some (val, d :: t) ∧ verbOk v a)
    ∨ (∃ val c l, runVerb v (a ++ d :: t) = some (val, (c :: l) ++ d :: t) ∧
        goodChar c) := by
  cases v with
  | vstr =>
    exact Or.inr (Or.inl ⟨SVal.s a, by simp [runVerb, scanStr_field a d t ha hd], ha.1⟩)
  | vu32 =>
    rcases scanUintW_split 32 a d t ha hd with h | ⟨v, h, w, hw⟩ | ⟨v, c, l, h, hc⟩
    · exact Or.inl (by simp [runVerb, h])
    · exact Or.inr (Or.inl ⟨SVal.i v, by simp [runVerb, h], w, hw⟩)
    · exact Or.inr (Or.inr ⟨SVal.i v, c, l, by simp [runVerb, h], hc⟩)
  | vi32 =>
    rcases scanIntW_split 32 a d t ha hd with h | ⟨v, h, w, hw⟩ | ⟨v, c, l, h, hc⟩
    · exact Or.inl (by simp [runVerb, h])
    · exact Or.inr (Or.inl ⟨SVal.i v, by simp [runVerb, h], w, hw⟩)
    · exact Or.inr (Or.inr ⟨SVal.i v, c, l, by simp [runVerb, h], hc⟩)
  | vi64 =>
    rcases scanIntW_split 64 a d t ha hd with h | ⟨v, h, w, hw⟩ | ⟨v, c, l, h, hc⟩
    · exact Or.inl (by simp [runVerb, h])
    · exact Or.inr (Or.inl ⟨SVal.i v, by simp [runVerb, h], w, hw⟩)
    · exact Or.inr (Or.inr ⟨SVal.i v, c, l, by simp [runVerb, h], hc⟩)
  | vu64 =>
    rcases scanUintW_split 64 a d t ha hd with h | ⟨v, h, w, hw⟩ | ⟨v, c, l, h, hc⟩
    · exact Or.inl (by simp [runVerb, h])
    · exact Or.inr (Or.inl ⟨SVal.i v, by simp [runVerb, h], w, hw⟩)
    · exact Or.inr (Or.inr ⟨SVal.i v, c, l, by simp [runVerb, h], hc⟩)

/-! ### C8: the verb list against the field list -/

lemma argCat_tail_sep (as : List Bytes) :
    ∃ d t, argCat as ++ crlf = d :: t ∧ isScanSpace d = true := by
  cases as with
  | nil => exact ⟨'\r', ['\n'], rfl, by decide⟩
  | cons b bs => exact ⟨' ', (b ++ argCat bs) ++ crlf, rfl, by decide⟩

lemma runVerb_nl (v : Verb) : runVerb v ['\n'] = none := by
  cases v <;> rfl

lemma runVerbs_crlf_fails (v : Verb) (vs : List Verb) :
    runVerbs (v :: vs) crlf = ([], none) := by
  have h1 : matchFmtSpace crlf = some ['\n'] := by decide
  simp only [runVerbs, h1, runVerb_nl]

lemma matchFmtNl_argCat (a : Bytes) (as : List Bytes) (ha : GoodTok a) :
    matchFmtNl (argCat (a :: as) ++ crlf) = false := by
  obtain ⟨c, a', rfl, hc, _⟩ := goodTok_cons a ha
  show matchFmtNl (' ' :: (((c :: a') ++ argCat as) ++ crlf)) = false
  unfold matchFmtNl
  rw [dropNonNlSpaces_space,
      show ((c :: a') ++ argCat as) ++ crlf = c :: ((a' ++ argCat as) ++ crlf) from rfl,
      dropNonNlSpaces_good _ _ hc]
  simp [hc.2]

/-- One induction step: over a canonical field list, the scan of
`v :: vs` either fails, or its first verb consumes exactly the first
field (which it accepts in full) and the rest of the scan is the scan
of `vs` over the remaining fields. -/
lemma runVerbs_cons_cases (v : Verb) (vs : List Verb) (a : Bytes) (as : List Bytes)
    (ha : GoodTok a) :
    scanFails (v :: vs) (a :: as)
    ∨ (verbOk v a ∧
       (runVerbs (v :: vs) (argCat (a :: as) ++ crlf)).2 =
         (runVerbs vs (argCat as ++ crlf)).2) := by
  obtain ⟨d, t, hdt, hd⟩ := argCat_tail_sep as
  obtain ⟨c, a', hae, hc, _hall⟩ := goodTok_cons a ha
  have hinput : argCat (a :: as) ++ crlf = ' ' :: (a ++ d :: t) := by
    show (' ' :: (a ++ argCat as)) ++ crlf = ' ' :: (a ++ d :: t)
    rw [List.cons_append, List.append_assoc, hdt]
  have hdrop : dropNonNlSpaces (a ++ d :: t) = a ++ d :: t := by
    rw [hae]
    exact dropNonNlSpaces_good c _ hc
  have hstep : runVerbs (v :: vs) (argCat (a :: as) ++ crlf) =
      (match runVerb v (a ++ d :: t) with
       | none => (([] : List SVal), (none : Option Bytes))
       | some (val, rest) =>
         let p := runVerbs vs rest
         (val :: p.1, p.2)) := by
    rw [hinput]
    simp only [runVerbs, matchFmtSpace_space, hdrop]
  rcases runVerb_split v a d t ha hd with h | ⟨val, h, hok⟩ | ⟨val, c1, l, h, hc1⟩
  · refine Or.inl (Or.inl ?_)
    rw [hstep, h]
  · refine Or.inr ⟨hok, ?_⟩
    rw [hstep, h, hdt]
  · cases vs with
    | nil =>
      refine Or.inl (Or.inr ⟨(c1 :: l) ++ d :: t, ?_, ?_⟩)
      · rw [hstep, h]
        rfl
      · exact matchFmtNl_good c1 _ hc1
    | cons v2 vs2 =>
      refine Or.inl (Or.inl ?_)
      have hs2 : runVerbs (v2 :: vs2) ((c1 :: l) ++ d :: t) = ([], none) := by
        simp only [runVerbs,
          show (c1 :: l) ++ d :: t = c1 :: (l ++ d :: t) from rfl,
          matchFmtSpace_good c1 _ hc1]
      rw [hstep, h]
      show (runVerbs (v2 :: vs2) ((c1 :: l) ++ d :: t)).2 = none
      rw [hs2]

/-- A verb count different from the field count makes the scan fail. -/
lemma scanFails_of_len (vs : List Verb) (args : List Bytes)
    (hg : ∀ t ∈ args, GoodTok t) (hlen : vs.length ≠ args.length) :
    scanFails vs args := by
  induction vs generalizing args with
  | nil =>
    cases args with
    | nil => exact absurd rfl hlen
    | cons a as =>
      exact Or.inr ⟨argCat (a :: as) ++ crlf, rfl,
        matchFmtNl_argCat a as (hg a (List.mem_cons_self a as))⟩
  | cons v vs ih =>
    cases args with
    | nil =>
      refine Or.inl ?_
      show (runVerbs (v :: vs) (argCat [] ++ crlf)).2 = none
      rw [show argCat [] ++ crlf = crlf from rfl, runVerbs_crlf_fails]
    | cons a as =>
      rcases runVerbs_cons_cases v vs a as (hg a (List.mem_cons_self a as)) with
        h | ⟨_, heq⟩
      · exact h
      · have hlen' : vs.length ≠ as.length := by
          intro h2
          exact hlen (by simp [h2])
        rcases ih as (fun t ht => hg t (List.mem_cons_of_mem a ht)) hlen' with
          h | ⟨rest, h, hnl⟩
        · exact Or.inl (heq.trans h)
        · exact Or.inr ⟨rest, heq.trans h, hnl⟩

/-- With matching counts, a field rejected by its verb makes the scan
fail. -/
lemma scanFails_of_badfield (vs : List Verb) (args : List Bytes)
    (hg : ∀ t ∈ args, GoodTok t) (hlen : vs.length = args.length)
    (hbad : ∃ i, i < vs.length ∧ ¬ verbOk (vs.getD i Verb.vstr) (args.getD i [])) :
    scanFails vs args := by
  induction vs generalizing args with
  | nil =>
    obtain ⟨i, hi, _⟩ := hbad
    exact absurd hi (by simp)
  | cons v vs ih =>
    cases args with
    | nil => simp at hlen
    | cons a as =>
      rcases runVerbs_cons_cases v vs a as (hg a (List.mem_cons_self a as)) with
        h | ⟨hok, heq⟩
      · exact h
      · obtain ⟨i, hi, hbadi⟩ := hbad
        cases i with
        | zero => exact absurd hok hbadi
        | succ j =>
          have hf := ih as (fun t ht => hg t (List.mem_cons_of_mem a ht))
            (by simpa using hlen) ⟨j, by simpa using hi, hbadi⟩
          rcases hf with h | ⟨rest, h, hnl⟩
          · exact Or.inl (heq.trans h)
          · exact Or.inr ⟨rest, heq.trans h, hnl⟩

/-! ### C8: from a failing verb scan to the session's behaviour -/

lemma matchLit_append (l r : Bytes) : matchLit l (l ++ r) = some r := by
  induction l with
  | nil => rfl
  | cons c cs ih => simp [matchLit, ih]

lemma count_argCat (args : List Bytes) (hg : ∀ t ∈ args, GoodTok t) :
    (argCat args).count ' ' = args.length := by
  induction args with
  | nil => rfl
  | cons a as ih =>
    have ha : a.count ' ' = 0 := by
      rw [List.count_eq_zero]
      intro hmem
      exact absurd ((hg a (List.mem_cons_self a as)).2 ' ' hmem).1 (by decide)
    have has : (argCat as).count ' ' = as.length :=
      ih (fun t ht => hg t (List.mem_cons_of_mem a ht))
    show (' ' :: (a ++ argCat as)).count ' ' = as.length + 1
    rw [List.count_cons, List.count_append, ha, has]
    simp

lemma count_setLineOf (args : List Bytes) (hg : ∀ t ∈ args, GoodTok t) :
    (setLineOf args).count ' ' = args.length := by
  unfold setLineOf
  rw [List.count_append, List.count_append, count_argCat args hg,
      show (bytes ("set")).count ' ' = 0 from by decide,
      show crlf.count ' ' = 0 from by decide]
  omega

lemma runScan_set_fails (verbs : List Verb) (args : List Bytes)
    (h : scanFails verbs args) :
    (runScan (bytes ("set")) verbs (setLineOf args)).2 = true := by
  have hline : setLineOf args = bytes ("set") ++ (argCat args ++ crlf) := by
    unfold setLineOf
    rw [List.append_assoc]
  unfold runScan
  rw [hline, matchLit_append]
  rcases h with h | ⟨rest, h, hnl⟩
  · simp [h]
  · simp [h, hnl]

lemma badNum_index_short (args : List Bytes) (h : badNum args) :
    ∃ i, i < ([Verb.vstr, Verb.vu32, Verb.vi32, Verb.vi64] : List Verb).length ∧
      ¬ verbOk (([Verb.vstr, Verb.vu32, Verb.vi32, Verb.vi64] : List Verb).getD i
          Verb.vstr) (args.getD i []) := by
  rcases h with h | h | h
  · exact ⟨1, by decide, h⟩
  · exact ⟨2, by decide, h⟩
  · exact ⟨3, by decide, h⟩

lemma badNum_index_long (args : List Bytes) (h : badNum args) :
    ∃ i, i < ([Verb.vstr, Verb.vu32, Verb.vi32, Verb.vi64, Verb.vstr] : List Verb).length ∧
      ¬ verbOk (([Verb.vstr, Verb.vu32, Verb.vi32, Verb.vi64, Verb.vstr] : List Verb).getD i
          Verb.vstr) (args.getD i []) := by
  rcases h with h | h | h
  · exact ⟨1, by decide, h⟩
  · exact ⟨2, by decide, h⟩
  · exact ⟨3, by decide, h⟩

/-- On a canonical set line with a wrong field count or an invalid
numeric field, `scanSetLine` reports an error. -/
lemma scanSetLine_fails (args : List Bytes)
    (hg : ∀ t ∈ args, GoodTok t)
    (hbad : (args.length ≠ 4 ∧ args.length ≠ 5) ∨ badNum args) :
    (scanSetLine (setLineOf args) false).err = true := by
  have hcnt : (setLineOf args).count ' ' = args.length := count_setLineOf args hg
  unfold scanSetLine
  simp only [hcnt]
  by_cases h4 : args.length = 4
  · have hbn : badNum args := by
      rcases hbad with ⟨hne4, _⟩ | hbn
      · exact absurd h4 hne4
      · exact hbn
    have hsf := scanFails_of_badfield [Verb.vstr, Verb.vu32, Verb.vi32, Verb.vi64] args hg
      (by simp [h4]) (badNum_index_short args hbn)
    have hrs := runScan_set_fails [Verb.vstr, Verb.vu32, Verb.vi32, Verb.vi64] args hsf
    simp [h4, hrs]
  · by_cases h5 : args.length = 5
    · have hbn : badNum args := by
        rcases hbad with ⟨_, hne5⟩ | hbn
        · exact absurd h5 hne5
        · exact hbn
      have hsf := scanFails_of_badfield
        [Verb.vstr, Verb.vu32, Verb.vi32, Verb.vi64, Verb.vstr] args hg
        (by simp [h5]) (badNum_index_long args hbn)
      have hrs := runScan_set_fails
        [Verb.vstr, Verb.vu32, Verb.vi32, Verb.vi64, Verb.vstr] args hsf
      simp [h4, hrs]
    · have hsf := scanFails_of_len
        [Verb.vstr, Verb.vu32, Verb.vi32, Verb.vi64, Verb.vstr] args hg
        (by simpa using fun h => h5 h.symm)
      have hrs := runScan_set_fails
        [Verb.vstr, Verb.vu32, Verb.vi32, Verb.vi64, Verb.vstr] args hsf
      simp [h4, hrs]

lemma sET_not_prefixOf (x : Bytes) :
    (bytes ("SET")).isPrefixOf (bytes ("set") ++ x) = false := rfl

/-- C8 amended. A canonical set line whose field count (excluding the
data line) is other than 4 or 5, or with a numeric field that fails
its declared conversion, is rejected by the parser through the
sentinel or a non-nil scan error; the session then writes `ERROR\r\n`
and flushes, reads no item bytes, never invokes the storage
capability, and the connection stays open (the step's outer error
remains the incoming `none`). -/
theorem set_bad_line_rejected (args : List Bytes) (rest : Bytes) (e : Eng)
    (hg : ∀ t ∈ args, GoodTok t)
    (hbad : (args.length ≠ 4 ∧ args.length ≠ 5) ∨ badNum args) :
    (scanSetLine (setLineOf args) false).err = true ∧
    dispatchLine (setLineOf args) rest e none =
      some ⟨[OutEvent.write resultError, OutEvent.flush], [], none, 0⟩ := by
  have herr := scanSetLine_fails args hg hbad
  refine ⟨herr, ?_⟩
  have hassoc : setLineOf args = bytes ("set") ++ (argCat args ++ crlf) := by
    unfold setLineOf
    rw [List.append_assoc]
  rw [hassoc] at herr ⊢
  unfold dispatchLine
  rw [isPrefixOf_self_append, sET_not_prefixOf]
  unfold setCase
  simp [herr]

/-- C8 witness: the theorem applied to the three-field line
`set k 0 0\r\n`. -/
theorem set_bad_line_rejected_witness :
    (∀ t ∈ [bytes ("k"), bytes ("0"), bytes ("0")], GoodTok t) ∧
    ((scanSetLine (setLineOf [bytes ("k"), bytes ("0"), bytes ("0")]) false).err = true ∧
     dispatchLine (setLineOf [bytes ("k"), bytes ("0"), bytes ("0")]) [] eng0 none =
       some ⟨[OutEvent.write resultError, OutEvent.flush], [], none, 0⟩) :=
  ⟨by decide,
   set_bad_line_rejected [bytes ("k"), bytes ("0"), bytes ("0")] [] eng0 (by decide)
     (Or.inl (by decide))⟩

end Mcproto
